import Mathlib

/-!
Verification of the amortization schedule engine of morty
(src/morty/main.py, class Plan).

The engine, Plan._calculate_amortization_table, is embedded over exact
rationals: the Python source runs on floats, but every claim under study
is about the arithmetic of the algorithm, which we take in exact
arithmetic.  The unbounded while-loop (while balance > 0) is embedded as
a fuel-indexed recursion returning Option: none models a run that has
not yet terminated within the given fuel, and termination claims become
statements that enough fuel exists.
-/

namespace Morty

/-- One row of the amortization table, mirroring the dict built at
main.py:308-317 (keys "Month", "Total Payment", "Principal Payment",
"Extra Payment", "Interest Payment", "Remaining Balance"). -/
structure ScheduleEntry where
  month : ℕ
  total_payment : ℚ
  principal_payment : ℚ
  extra_payment : ℚ
  interest_payment : ℚ
  remaining_balance : ℚ
  deriving Repr, DecidableEq

/-- The extra payment looked up for a (1-based) month, mirroring
main.py:297: extra_payments[month - 1] if extra_payments and month <=
len(extra_payments) else 0.  Here none models the Python default
extra_payments=None; an out-of-range month yields 0.  (The Python
truthiness test on the list only matters for the empty list, for which
the length test already fails at every month the loop uses.) -/
def getExtra (extras : Option (List ℚ)) (month : ℕ) : ℚ :=
  match extras with
  | none => 0
  | some l => if month ≤ l.length then l.getD (month - 1) 0 else 0

/-- One iteration of the loop body at main.py:294-317: computes the
interest, the principal component, the clamped final-month payment, the
new balance, and the emitted row.  Returns the row together with the new
internal balance. -/
def amortStep (monthly_rate monthly_payment extra balance : ℚ) (month : ℕ) :
    ScheduleEntry × ℚ :=
  let interest := balance * monthly_rate
  let principal_payment := monthly_payment - interest
  let total_payment := monthly_payment + extra
  -- "Check if the total payment exceeds the remaining balance" (main.py:301)
  if total_payment > balance + interest then
    let total_payment' := balance + interest
    let principal_payment' := balance
    let balance' := balance - (principal_payment' + extra)
    (⟨month, total_payment', principal_payment', extra, interest, max balance' 0⟩, balance')
  else
    let balance' := balance - (principal_payment + extra)
    (⟨month, total_payment, principal_payment, extra, interest, max balance' 0⟩, balance')

/-- The loop (while balance > 0) of main.py:294-319, with explicit fuel.
Entries are produced in loop order; the accumulated total interest adds
the interest of each month exactly as total_interest += interest does. -/
def amortLoop (monthly_rate monthly_payment : ℚ) (extras : Option (List ℚ)) :
    ℕ → ℚ → ℕ → Option (List ScheduleEntry × ℚ)
  | 0, balance, _ =>
    if 0 < balance then none else some ([], 0)
  | fuel + 1, balance, month =>
    if 0 < balance then
      (amortLoop monthly_rate monthly_payment extras fuel
          (amortStep monthly_rate monthly_payment (getExtra extras month) balance month).2
          (month + 1)).map
        (fun r =>
          ((amortStep monthly_rate monthly_payment (getExtra extras month) balance month).1
              :: r.1,
            balance * monthly_rate + r.2))
    else
      some ([], 0)

/-- The fixed monthly payment of main.py:284-286: the standard annuity
formula principal * (monthly_rate * (1 + monthly_rate) ** n) /
((1 + monthly_rate) ** n - 1). -/
def annuityPayment (principal monthly_rate : ℚ) (n : ℕ) : ℚ :=
  principal * (monthly_rate * (1 + monthly_rate) ^ n) / ((1 + monthly_rate) ^ n - 1)

/-- Embeds Plan._calculate_amortization_table (main.py:265-323): monthly
rate, number of nominal payments, the fixed annuity payment of
main.py:284-286, then the loop from balance = principal, month = 1. -/
def calculateAmortizationTable (principal annual_rate : ℚ) (years : ℕ)
    (extras : Option (List ℚ)) (fuel : ℕ) : Option (List ScheduleEntry × ℚ) :=
  let monthly_rate := annual_rate / 12 / 100
  let total_payments := years * 12
  let monthly_payment := principal * (monthly_rate * (1 + monthly_rate) ^ total_payments) /
    ((1 + monthly_rate) ^ total_payments - 1)
  amortLoop monthly_rate monthly_payment extras fuel principal 1

/-- The internal balance of the engine before relative iteration i, when
the loop is entered with balance b at month m: the trace of the balance
mutation balance -= (principal_payment + extra_payment) of main.py:305. -/
def balFrom (monthly_rate monthly_payment : ℚ) (extras : Option (List ℚ))
    (b : ℚ) (m : ℕ) : ℕ → ℚ
  | 0 => b
  | i + 1 =>
    (amortStep monthly_rate monthly_payment (getExtra extras (m + i))
      (balFrom monthly_rate monthly_payment extras b m i) (m + i)).2

/-- All supplied extra payments are non-negative (vacuous for the absent
sequence). -/
def extrasNonneg : Option (List ℚ) → Prop
  | none => True
  | some l => ∀ x ∈ l, 0 ≤ x

instance : (e : Option (List ℚ)) → Decidable (extrasNonneg e)
  | none => .isTrue trivial
  | some l => inferInstanceAs (Decidable (∀ x ∈ l, 0 ≤ x))

section StepLemmas

variable {ρ pmt e b : ℚ} {m : ℕ}

theorem amortStep_interest : (amortStep ρ pmt e b m).1.interest_payment = b * ρ := by
  simp only [amortStep]; split <;> rfl

theorem amortStep_extra : (amortStep ρ pmt e b m).1.extra_payment = e := by
  simp only [amortStep]; split <;> rfl

theorem amortStep_month : (amortStep ρ pmt e b m).1.month = m := by
  simp only [amortStep]; split <;> rfl

theorem amortStep_remaining :
    (amortStep ρ pmt e b m).1.remaining_balance = max (amortStep ρ pmt e b m).2 0 := by
  simp only [amortStep]; split <;> rfl

/-- The balance update of main.py:305 subtracts exactly the recorded
principal and extra payment fields of the emitted row. -/
theorem amortStep_snd_eq :
    (amortStep ρ pmt e b m).2 =
      b - ((amortStep ρ pmt e b m).1.principal_payment +
        (amortStep ρ pmt e b m).1.extra_payment) := by
  simp only [amortStep]; split <;> rfl

theorem amortStep_tp_clamp (h : pmt + e > b + b * ρ) :
    (amortStep ρ pmt e b m).1.total_payment = b + b * ρ := by
  simp only [amortStep]; rw [if_pos h]

theorem amortStep_pp_clamp (h : pmt + e > b + b * ρ) :
    (amortStep ρ pmt e b m).1.principal_payment = b := by
  simp only [amortStep]; rw [if_pos h]

theorem amortStep_snd_clamp (h : pmt + e > b + b * ρ) :
    (amortStep ρ pmt e b m).2 = -e := by
  simp only [amortStep]; rw [if_pos h]; ring

theorem amortStep_tp_noclamp (h : ¬ pmt + e > b + b * ρ) :
    (amortStep ρ pmt e b m).1.total_payment = pmt + e := by
  simp only [amortStep]; rw [if_neg h]

theorem amortStep_pp_noclamp (h : ¬ pmt + e > b + b * ρ) :
    (amortStep ρ pmt e b m).1.principal_payment = pmt - b * ρ := by
  simp only [amortStep]; rw [if_neg h]

theorem amortStep_snd_noclamp (h : ¬ pmt + e > b + b * ρ) :
    (amortStep ρ pmt e b m).2 = b + b * ρ - pmt - e := by
  simp only [amortStep]; rw [if_neg h]; ring

end StepLemmas

section TraceLemmas

variable (ρ pmt : ℚ) (extras : Option (List ℚ))

theorem balFrom_shift (b : ℚ) (m : ℕ) :
    ∀ i, balFrom ρ pmt extras b m (i + 1) =
      balFrom ρ pmt extras ((amortStep ρ pmt (getExtra extras m) b m).2) (m + 1) i := by
  intro i
  induction i with
  | zero => simp [balFrom]
  | succ i ih =>
    rw [show balFrom ρ pmt extras b m (i + 1 + 1) =
        (amortStep ρ pmt (getExtra extras (m + (i + 1)))
          (balFrom ρ pmt extras b m (i + 1)) (m + (i + 1))).2 from rfl,
      ih,
      show balFrom ρ pmt extras ((amortStep ρ pmt (getExtra extras m) b m).2) (m + 1) (i + 1) =
        (amortStep ρ pmt (getExtra extras (m + 1 + i))
          (balFrom ρ pmt extras ((amortStep ρ pmt (getExtra extras m) b m).2) (m + 1) i)
          (m + 1 + i)).2 from rfl,
      show m + (i + 1) = m + 1 + i by omega]

/-- Full characterization of a successful loop run: every emitted entry
is the step function applied to the balance trace, the trace is positive
at every emitted index, the loop stops exactly when the trace is no
longer positive, and the accumulated interest is the sum of the recorded
interest fields. -/
theorem amortLoop_spec :
    ∀ (fuel : ℕ) (b : ℚ) (m : ℕ) (entries : List ScheduleEntry) (ti : ℚ),
      amortLoop ρ pmt extras fuel b m = some (entries, ti) →
        (∀ i (hi : i < entries.length),
          entries.get ⟨i, hi⟩ =
            (amortStep ρ pmt (getExtra extras (m + i)) (balFrom ρ pmt extras b m i) (m + i)).1 ∧
          0 < balFrom ρ pmt extras b m i) ∧
        ¬ 0 < balFrom ρ pmt extras b m entries.length ∧
        ti = (entries.map (fun en => en.interest_payment)).sum := by
  intro fuel
  induction fuel with
  | zero =>
    intro b m entries ti h
    rw [amortLoop] at h
    by_cases hb : 0 < b
    · simp [hb] at h
    · rw [if_neg hb] at h
      simp only [Option.some.injEq, Prod.mk.injEq] at h
      obtain ⟨rfl, rfl⟩ := h
      refine ⟨by intro i hi; simp at hi, ?_, by simp⟩
      simpa [balFrom] using hb
  | succ fuel ih =>
    intro b m entries ti h
    rw [amortLoop] at h
    by_cases hb : 0 < b
    · rw [if_pos hb, Option.map_eq_some'] at h
      obtain ⟨⟨rest, ti'⟩, hrec, hmk⟩ := h
      simp only [Prod.mk.injEq] at hmk
      obtain ⟨rfl, rfl⟩ := hmk
      obtain ⟨ihget, ihend, ihti⟩ := ih _ _ _ _ hrec
      refine ⟨?_, ?_, ?_⟩
      · intro i hi
        match i with
        | 0 =>
          refine ⟨?_, by simpa [balFrom] using hb⟩
          show (amortStep ρ pmt (getExtra extras m) b m).1 = _
          simp [balFrom]
        | i + 1 =>
          have hi' : i < rest.length := by simpa using hi
          obtain ⟨h1, h2⟩ := ihget i hi'
          constructor
          · show rest.get ⟨i, hi'⟩ = _
            rw [h1, balFrom_shift, show m + (i + 1) = m + 1 + i by omega]
          · rw [balFrom_shift]; exact h2
      · show ¬ 0 < balFrom ρ pmt extras b m (rest.length + 1)
        rw [balFrom_shift]; exact ihend
      · simp only [List.map_cons, List.sum_cons, amortStep_interest, ihti]
    · rw [if_neg hb] at h
      simp only [Option.some.injEq, Prod.mk.injEq] at h
      obtain ⟨rfl, rfl⟩ := h
      refine ⟨by intro i hi; simp at hi, ?_, by simp⟩
      simpa [balFrom] using hb

/-- With fuel at least the first index at which the balance trace is no
longer positive, the loop terminates. -/
theorem amortLoop_isSome_of_balFrom :
    ∀ (k fuel : ℕ) (b : ℚ) (m : ℕ), k ≤ fuel →
      ¬ 0 < balFrom ρ pmt extras b m k →
      (amortLoop ρ pmt extras fuel b m).isSome = true := by
  intro k
  induction k with
  | zero =>
    intro fuel b m _ hbal
    have hb : ¬ 0 < b := by simpa [balFrom] using hbal
    cases fuel <;> rw [amortLoop, if_neg hb] <;> rfl
  | succ k ihk =>
    intro fuel b m hk hbal
    by_cases hb : 0 < b
    · match fuel with
      | 0 => omega
      | fuel + 1 =>
        rw [amortLoop, if_pos hb, Option.isSome_map']
        exact ihk fuel _ (m + 1) (by omega) (by rw [← balFrom_shift]; exact hbal)
    · cases fuel <;> rw [amortLoop, if_neg hb] <;> rfl

/-- The schedule never has more entries than the loop had fuel. -/
theorem amortLoop_length_le :
    ∀ (fuel : ℕ) (b : ℚ) (m : ℕ) (entries : List ScheduleEntry) (ti : ℚ),
      amortLoop ρ pmt extras fuel b m = some (entries, ti) → entries.length ≤ fuel := by
  intro fuel
  induction fuel with
  | zero =>
    intro b m entries ti h
    rw [amortLoop] at h
    by_cases hb : 0 < b
    · simp [hb] at h
    · rw [if_neg hb] at h
      simp only [Option.some.injEq, Prod.mk.injEq] at h
      obtain ⟨rfl, rfl⟩ := h
      simp
  | succ fuel ih =>
    intro b m entries ti h
    rw [amortLoop] at h
    by_cases hb : 0 < b
    · rw [if_pos hb, Option.map_eq_some'] at h
      obtain ⟨⟨rest, ti'⟩, hrec, hmk⟩ := h
      simp only [Prod.mk.injEq] at hmk
      obtain ⟨rfl, rfl⟩ := hmk
      simpa using ih _ _ _ _ hrec
    · rw [if_neg hb] at h
      simp only [Option.some.injEq, Prod.mk.injEq] at h
      obtain ⟨rfl, rfl⟩ := h
      simp

/-- The accumulated total interest is the monthly rate times the sum of
the balances at the start of each emitted month. -/
theorem amortLoop_ti_eq_sum :
    ∀ (fuel : ℕ) (b : ℚ) (m : ℕ) (entries : List ScheduleEntry) (ti : ℚ),
      amortLoop ρ pmt extras fuel b m = some (entries, ti) →
      ti = ∑ i ∈ Finset.range entries.length, balFrom ρ pmt extras b m i * ρ := by
  intro fuel
  induction fuel with
  | zero =>
    intro b m entries ti h
    rw [amortLoop] at h
    by_cases hb : 0 < b
    · simp [hb] at h
    · rw [if_neg hb] at h
      simp only [Option.some.injEq, Prod.mk.injEq] at h
      obtain ⟨rfl, rfl⟩ := h
      simp
  | succ fuel ih =>
    intro b m entries ti h
    rw [amortLoop] at h
    by_cases hb : 0 < b
    · rw [if_pos hb, Option.map_eq_some'] at h
      obtain ⟨⟨rest, ti'⟩, hrec, hmk⟩ := h
      simp only [Prod.mk.injEq] at hmk
      obtain ⟨rfl, rfl⟩ := hmk
      have hti := ih _ _ _ _ hrec
      have hshift : ∀ i, balFrom ρ pmt extras b m (i + 1) =
          balFrom ρ pmt extras ((amortStep ρ pmt (getExtra extras m) b m).2) (m + 1) i :=
        balFrom_shift ρ pmt extras b m
      have hsum : ∑ i ∈ Finset.range rest.length, balFrom ρ pmt extras b m (i + 1) * ρ =
          ∑ i ∈ Finset.range rest.length,
            balFrom ρ pmt extras ((amortStep ρ pmt (getExtra extras m) b m).2) (m + 1) i * ρ :=
        Finset.sum_congr rfl (fun i _ => by rw [hshift i])
      simp only [List.length_cons, Finset.sum_range_succ', hsum]
      rw [hti, show balFrom ρ pmt extras b m 0 = b from rfl]
      ring
    · rw [if_neg hb] at h
      simp only [Option.some.injEq, Prod.mk.injEq] at h
      obtain ⟨rfl, rfl⟩ := h
      simp

end TraceLemmas

section OrderLemmas

variable {ρ pmt e e1 e2 b b1 b2 : ℚ} {m : ℕ}

theorem getExtra_nonneg {extras : Option (List ℚ)} (h : extrasNonneg extras) (month : ℕ) :
    0 ≤ getExtra extras month := by
  match extras with
  | none => exact le_refl 0
  | some l =>
    simp only [getExtra]
    split
    · rcases h' : l[month - 1]? with _ | x
      · simp [List.getD_eq_getElem?_getD, h']
      · have hx : x ∈ l := List.getElem?_mem h'
        simpa [List.getD_eq_getElem?_getD, h'] using h x hx
    · exact le_refl 0

/-- From a non-positive balance, one step keeps the balance non-positive
(the loop would already have stopped). -/
theorem amortStep_snd_nonpos (hpmt : 0 < pmt) (hρ : 0 ≤ ρ) (he : 0 ≤ e) (hb : b ≤ 0) :
    (amortStep ρ pmt e b m).2 ≤ 0 := by
  by_cases h : pmt + e > b + b * ρ
  · rw [amortStep_snd_clamp h]; linarith
  · rw [amortStep_snd_noclamp h]
    have : b * ρ ≤ 0 := mul_nonpos_of_nonpos_of_nonneg hb hρ
    linarith

/-- While positive and at most the initial principal, the balance
strictly decreases at every step (given that the fixed payment exceeds
the interest on the initial principal). -/
theorem amortStep_snd_lt {p : ℚ} (hρ : 0 ≤ ρ) (he : 0 ≤ e) (hb : 0 < b) (hbp : b ≤ p)
    (hpmt : p * ρ < pmt) : (amortStep ρ pmt e b m).2 < b := by
  by_cases h : pmt + e > b + b * ρ
  · rw [amortStep_snd_clamp h]; linarith
  · rw [amortStep_snd_noclamp h]
    have : b * ρ ≤ p * ρ := mul_le_mul_of_nonneg_right hbp hρ
    linarith

/-- The new balance is monotone in the old balance. -/
theorem amortStep_snd_mono (hρ : 0 ≤ ρ) (he : 0 ≤ e) (hb : b1 ≤ b2) :
    (amortStep ρ pmt e b1 m).2 ≤ (amortStep ρ pmt e b2 m).2 := by
  have hmul : b1 * ρ ≤ b2 * ρ := mul_le_mul_of_nonneg_right hb hρ
  by_cases h1 : pmt + e > b1 + b1 * ρ
  · by_cases h2 : pmt + e > b2 + b2 * ρ
    · rw [amortStep_snd_clamp h1, amortStep_snd_clamp h2]
    · rw [amortStep_snd_clamp h1, amortStep_snd_noclamp h2]
      push_neg at h2
      linarith
  · have h2 : ¬ pmt + e > b2 + b2 * ρ := by push_neg at h1 ⊢; linarith
    rw [amortStep_snd_noclamp h1, amortStep_snd_noclamp h2]
    linarith

/-- The new balance is antitone in the extra payment. -/
theorem amortStep_snd_anti (h0 : 0 ≤ e1) (h12 : e1 ≤ e2) :
    (amortStep ρ pmt e2 b m).2 ≤ (amortStep ρ pmt e1 b m).2 := by
  by_cases h1 : pmt + e1 > b + b * ρ
  · have h2 : pmt + e2 > b + b * ρ := by linarith
    rw [amortStep_snd_clamp h1, amortStep_snd_clamp h2]
    linarith
  · by_cases h2 : pmt + e2 > b + b * ρ
    · rw [amortStep_snd_clamp h2, amortStep_snd_noclamp h1]
      push_neg at h1
      linarith
    · rw [amortStep_snd_noclamp h1, amortStep_snd_noclamp h2]
      linarith

end OrderLemmas

section Invariants

variable {p r ρ pmt : ℚ} {extras : Option (List ℚ)}

/-- The internal balance never exceeds the initial principal. -/
theorem balFrom_le_init (hp : 0 < p) (hρ : 0 < ρ) (hpmt : p * ρ < pmt)
    (hext : extrasNonneg extras) : ∀ i, balFrom ρ pmt extras p 1 i ≤ p := by
  intro i
  induction i with
  | zero => exact le_refl p
  | succ i ih =>
    rw [show balFrom ρ pmt extras p 1 (i + 1) =
      (amortStep ρ pmt (getExtra extras (1 + i)) (balFrom ρ pmt extras p 1 i) (1 + i)).2
      from rfl]
    set b := balFrom ρ pmt extras p 1 i with hb
    have he : 0 ≤ getExtra extras (1 + i) := getExtra_nonneg hext (1 + i)
    by_cases h : pmt + getExtra extras (1 + i) > b + b * ρ
    · rw [amortStep_snd_clamp h]; linarith
    · rw [amortStep_snd_noclamp h]
      have : b * ρ ≤ p * ρ := mul_le_mul_of_nonneg_right ih hρ.le
      linarith

/-- Once the balance trace is non-positive it stays non-positive. -/
theorem balFrom_nonpos_succ (hp : 0 < p) (hρ : 0 < ρ) (hpmt : p * ρ < pmt)
    (hext : extrasNonneg extras) {i : ℕ} (h : balFrom ρ pmt extras p 1 i ≤ 0) :
    balFrom ρ pmt extras p 1 (i + 1) ≤ 0 := by
  have hpmt0 : 0 < pmt := lt_trans (mul_pos hp hρ) hpmt
  exact amortStep_snd_nonpos hpmt0 hρ.le (getExtra_nonneg hext (1 + i)) h

/-- While positive, the balance trace is bounded by the initial principal
minus the accumulated guaranteed decrement. -/
theorem balFrom_bound (hp : 0 < p) (hρ : 0 < ρ) (hpmt : p * ρ < pmt)
    (hext : extrasNonneg extras) :
    ∀ i, 0 < balFrom ρ pmt extras p 1 i →
      balFrom ρ pmt extras p 1 i ≤ p - i * (pmt - p * ρ) := by
  intro i
  induction i with
  | zero => intro _; simp [balFrom]
  | succ i ih =>
    intro hpos
    have hprev : 0 < balFrom ρ pmt extras p 1 i := by
      by_contra hc
      push_neg at hc
      exact absurd (balFrom_nonpos_succ hp hρ hpmt hext hc) (by linarith)
    have hle := ih hprev
    have hstep : balFrom ρ pmt extras p 1 (i + 1) =
        (amortStep ρ pmt (getExtra extras (1 + i)) (balFrom ρ pmt extras p 1 i) (1 + i)).2 := rfl
    set b := balFrom ρ pmt extras p 1 i with hb
    have he : 0 ≤ getExtra extras (1 + i) := getExtra_nonneg hext (1 + i)
    have hps : balFrom ρ pmt extras p 1 (i + 1) ≤ b - (pmt - p * ρ) := by
      by_cases h : pmt + getExtra extras (1 + i) > b + b * ρ
      · exfalso
        rw [hstep, amortStep_snd_clamp h] at hpos
        linarith
      · rw [hstep, amortStep_snd_noclamp h]
        have hbp : b ≤ p := balFrom_le_init hp hρ hpmt hext i
        have : b * ρ ≤ p * ρ := mul_le_mul_of_nonneg_right hbp hρ.le
        linarith
    push_cast
    linarith

/-- The balance trace eventually becomes non-positive: the loop condition
eventually fails. -/
theorem exists_balFrom_nonpos (hp : 0 < p) (hρ : 0 < ρ) (hpmt : p * ρ < pmt)
    (hext : extrasNonneg extras) :
    ∃ k, ¬ 0 < balFrom ρ pmt extras p 1 k := by
  by_contra hc
  push_neg at hc
  obtain ⟨k, hk⟩ := exists_nat_gt (p / (pmt - p * ρ))
  have hδ : 0 < pmt - p * ρ := by linarith
  have hb := balFrom_bound hp hρ hpmt hext k (hc k)
  have : p < k * (pmt - p * ρ) := by
    rw [div_lt_iff₀ hδ] at hk
    linarith
  have := hc k
  linarith

end Invariants

section ClosedForm

variable {p ρ : ℚ} {n : ℕ}

/-- The annuity payment strictly exceeds the interest accrued on the full
principal in one month. -/
theorem annuityPayment_gt (hp : 0 < p) (hρ : 0 < ρ) (hn : 0 < n) :
    p * ρ < annuityPayment p ρ n := by
  have hq : 1 < (1 + ρ) ^ n := one_lt_pow₀ (by linarith) hn.ne'
  have hq0 : (1 + ρ) ^ n - 1 ≠ 0 := by linarith
  have key : annuityPayment p ρ n - p * ρ = p * ρ / ((1 + ρ) ^ n - 1) := by
    rw [annuityPayment]
    field_simp
    ring
  have := div_pos (mul_pos hp hρ) (by linarith : (0:ℚ) < (1 + ρ) ^ n - 1)
  linarith

/-- Closed form of the balance trace for the zero-extra-payment run with
the annuity payment: after k of the n scheduled months the balance is
p ((1+rho)^n - (1+rho)^k) / ((1+rho)^n - 1), and no clamp ever fires. -/
theorem balFrom_none_closed (hp : 0 < p) (hρ : 0 < ρ) (hn : 0 < n) :
    ∀ k, k ≤ n → balFrom ρ (annuityPayment p ρ n) none p 1 k =
      p * ((1 + ρ) ^ n - (1 + ρ) ^ k) / ((1 + ρ) ^ n - 1) := by
  have hq : 1 < (1 + ρ) ^ n := one_lt_pow₀ (by linarith) hn.ne'
  have hq0 : (1 + ρ) ^ n - 1 ≠ 0 := by linarith
  intro k
  induction k with
  | zero =>
    intro _
    rw [show balFrom ρ (annuityPayment p ρ n) none p 1 0 = p from rfl, pow_zero,
      mul_div_assoc, div_self hq0, mul_one]
  | succ k ih =>
    intro hk1
    have hk : k ≤ n := Nat.le_of_succ_le hk1
    have hb := ih hk
    have hstep : balFrom ρ (annuityPayment p ρ n) none p 1 (k + 1) =
        (amortStep ρ (annuityPayment p ρ n) 0
          (balFrom ρ (annuityPayment p ρ n) none p 1 k) (1 + k)).2 := rfl
    set b := balFrom ρ (annuityPayment p ρ n) none p 1 k with hbdef
    have hpow : (1 + ρ) ^ (k + 1) ≤ (1 + ρ) ^ n := pow_le_pow_right₀ (by linarith) hk1
    have key : b + b * ρ - annuityPayment p ρ n =
        p * ((1 + ρ) ^ n - (1 + ρ) ^ (k + 1)) / ((1 + ρ) ^ n - 1) := by
      rw [hb, annuityPayment]
      field_simp
      ring
    have hnc : ¬ annuityPayment p ρ n + 0 > b + b * ρ := by
      have hge : 0 ≤ p * ((1 + ρ) ^ n - (1 + ρ) ^ (k + 1)) / ((1 + ρ) ^ n - 1) :=
        div_nonneg (mul_nonneg hp.le (by linarith)) (by linarith)
      push_neg
      linarith
    rw [hstep, amortStep_snd_noclamp hnc]
    linarith [key]

/-- With zero extra payments the balance is exactly zero after the n
scheduled months. -/
theorem balFrom_none_apply_n (hp : 0 < p) (hρ : 0 < ρ) (hn : 0 < n) :
    balFrom ρ (annuityPayment p ρ n) none p 1 n = 0 := by
  rw [balFrom_none_closed hp hρ hn n (le_refl n), sub_self, mul_zero, zero_div]

/-- With zero extra payments the balance is still positive strictly
before the n-th month. -/
theorem balFrom_none_pos (hp : 0 < p) (hρ : 0 < ρ) (hn : 0 < n) {k : ℕ} (hk : k < n) :
    0 < balFrom ρ (annuityPayment p ρ n) none p 1 k := by
  have hq : 1 < (1 + ρ) ^ n := one_lt_pow₀ (by linarith) hn.ne'
  rw [balFrom_none_closed hp hρ hn k hk.le]
  have hpow : (1 + ρ) ^ k < (1 + ρ) ^ n := pow_lt_pow_right₀ (by linarith) hk
  exact div_pos (mul_pos hp (by linarith)) (by linarith)

end ClosedForm

/-- The engine is the loop run with the monthly rate and the annuity
payment, starting from the principal at month 1. -/
theorem calculateAmortizationTable_eq (p r : ℚ) (y : ℕ) (extras : Option (List ℚ))
    (fuel : ℕ) : calculateAmortizationTable p r y extras fuel =
      amortLoop (r / 12 / 100) (annuityPayment p (r / 12 / 100) (y * 12)) extras fuel p 1 := rfl

/-- The loop reads the extra-payment sequence only through getExtra. -/
theorem amortLoop_congr {ρ pmt : ℚ} {e1 e2 : Option (List ℚ)}
    (h : ∀ month, getExtra e1 month = getExtra e2 month) :
    ∀ (fuel : ℕ) (b : ℚ) (m : ℕ), amortLoop ρ pmt e1 fuel b m = amortLoop ρ pmt e2 fuel b m := by
  intro fuel
  induction fuel with
  | zero => intro b m; rfl
  | succ fuel ih =>
    intro b m
    rw [amortLoop, amortLoop, h m, ih]

/-- An all-zero extra-payment list of any length reads as 0 at every
month, exactly like the absent sequence. -/
theorem getExtra_replicate_zero (L month : ℕ) :
    getExtra (some (List.replicate L (0:ℚ))) month = 0 := by
  simp only [getExtra, List.length_replicate]
  split
  · rcases h' : (List.replicate L (0:ℚ))[month - 1]? with _ | x
    · simp [List.getD_eq_getElem?_getD, h']
    · have hx : x ∈ List.replicate L (0:ℚ) := List.getElem?_mem h'
      rw [List.eq_of_mem_replicate hx] at h'
      simp [List.getD_eq_getElem?_getD, h']
  · rfl

section Claims

variable {p r : ℚ} {y : ℕ} {extras : Option (List ℚ)}

/-- C1: every emitted row has a non-negative remaining balance, the
remaining balance strictly decreases from each row to the next, and the
final row shows a remaining balance of exactly 0. -/
def ScheduleInvariants (res : Option (List ScheduleEntry × ℚ)) : Prop :=
  ∀ entries ti, res = some (entries, ti) →
    (∀ en ∈ entries, 0 ≤ en.remaining_balance) ∧
    (∀ i (h : i + 1 < entries.length),
      (entries.get ⟨i + 1, h⟩).remaining_balance <
        (entries.get ⟨i, Nat.lt_of_succ_lt h⟩).remaining_balance) ∧
    (∀ h : entries ≠ [], (entries.getLast h).remaining_balance = 0)

/-- C1: for positive principal, rate and term and non-negative extra
payments, every successful run of the engine satisfies the balance
invariants: remaining_balance is never negative, strictly decreases row
over row, and ends at exactly 0. -/
theorem claim_C1 (hp : 0 < p) (hr : 0 < r) (hy : 0 < y) (hext : extrasNonneg extras)
    (fuel : ℕ) : ScheduleInvariants (calculateAmortizationTable p r y extras fuel) := by
  intro entries ti hres
  rw [calculateAmortizationTable_eq] at hres
  set ρ := r / 12 / 100 with hρdef
  set pmt := annuityPayment p ρ (y * 12) with hpmtdef
  have hρ : 0 < ρ := by rw [hρdef]; positivity
  have hpmt : p * ρ < pmt := annuityPayment_gt hp hρ (by omega)
  obtain ⟨hget, hend, -⟩ := amortLoop_spec ρ pmt extras fuel p 1 entries ti hres
  have hsucc : ∀ i, (amortStep ρ pmt (getExtra extras (1 + i)) (balFrom ρ pmt extras p 1 i)
      (1 + i)).2 = balFrom ρ pmt extras p 1 (i + 1) := fun i => rfl
  refine ⟨?_, ?_, ?_⟩
  · intro en hen
    obtain ⟨⟨i, hi⟩, rfl⟩ := List.mem_iff_get.mp hen
    rw [(hget i hi).1, amortStep_remaining]
    exact le_max_right _ _
  · intro i h
    rw [(hget (i + 1) h).1, (hget i (Nat.lt_of_succ_lt h)).1,
      amortStep_remaining, amortStep_remaining, hsucc, hsucc]
    have hpos1 : 0 < balFrom ρ pmt extras p 1 (i + 1) := by
      rw [← hsucc]; exact (hget (i + 1) h).2
    rw [max_eq_left hpos1.le]
    refine max_lt ?_ hpos1
    rw [← hsucc]
    exact amortStep_snd_lt hρ.le (getExtra_nonneg hext (1 + (i + 1))) hpos1
      (balFrom_le_init hp hρ hpmt hext (i + 1)) hpmt
  · intro h
    have hlen : 0 < entries.length := List.length_pos.mpr h
    rw [List.getLast_eq_get]
    rw [(hget (entries.length - 1) (by omega)).1, amortStep_remaining, hsucc]
    rw [show entries.length - 1 + 1 = entries.length from by omega]
    exact max_eq_right (le_of_not_lt hend)

/-- C2: row-level accounting relative to a balance evolution bal:
interest is the previous balance times the monthly rate, the balance
advances by subtracting the recorded principal and extra payment, and
the returned total interest is the sum of the interest fields. -/
def EntryAccounting (ρ : ℚ) (bal : ℕ → ℚ) (res : Option (List ScheduleEntry × ℚ)) : Prop :=
  ∀ entries ti, res = some (entries, ti) →
    (∀ i (h : i < entries.length),
      (entries.get ⟨i, h⟩).interest_payment = bal i * ρ ∧
      bal (i + 1) = bal i - ((entries.get ⟨i, h⟩).principal_payment +
        (entries.get ⟨i, h⟩).extra_payment)) ∧
    ti = (entries.map (fun en => en.interest_payment)).sum

/-- C2: for every input, each row of a successful run charges interest
equal to the balance before that month times the monthly rate
annual_rate / 12 / 100, the internal balance after the month is the
balance before it minus (principal_payment + extra_payment), and
total_interest is the sum of all interest_payment fields. -/
theorem claim_C2 (p r : ℚ) (y : ℕ) (extras : Option (List ℚ)) (fuel : ℕ) :
    EntryAccounting (r / 12 / 100)
      (balFrom (r / 12 / 100) (annuityPayment p (r / 12 / 100) (y * 12)) extras p 1)
      (calculateAmortizationTable p r y extras fuel) := by
  intro entries ti hres
  rw [calculateAmortizationTable_eq] at hres
  obtain ⟨hget, -, hti⟩ :=
    amortLoop_spec (r / 12 / 100) (annuityPayment p (r / 12 / 100) (y * 12)) extras fuel p 1
      entries ti hres
  refine ⟨?_, hti⟩
  intro i h
  rw [(hget i h).1]
  refine ⟨amortStep_interest, ?_⟩
  rw [show balFrom (r / 12 / 100) (annuityPayment p (r / 12 / 100) (y * 12)) extras p 1 (i + 1) =
    (amortStep (r / 12 / 100) (annuityPayment p (r / 12 / 100) (y * 12))
      (getExtra extras (1 + i))
      (balFrom (r / 12 / 100) (annuityPayment p (r / 12 / 100) (y * 12)) extras p 1 i)
      (1 + i)).2 from rfl]
  exact amortStep_snd_eq

/-- C3 (first half): some amount of fuel makes the engine terminate. -/
def EngineTerminates (p r : ℚ) (y : ℕ) (extras : Option (List ℚ)) : Prop :=
  ∃ fuel, (calculateAmortizationTable p r y extras fuel).isSome = true

/-- C3 (second half): with every extra payment equal to zero, fuel
n = years * 12 suffices, and the schedule then has at most n rows. -/
def ZeroExtraFuelBound (p r : ℚ) (y : ℕ) : Prop :=
  ∀ extras0, (∀ month, getExtra extras0 month = 0) →
    (calculateAmortizationTable p r y extras0 (y * 12)).isSome = true ∧
    ∀ entries ti, calculateAmortizationTable p r y extras0 (y * 12) = some (entries, ti) →
      entries.length ≤ y * 12

/-- C3: for positive principal, rate and term and non-negative extra
payments the loop terminates after finitely many iterations, and with
all-zero extra payments it performs at most years * 12 iterations. -/
theorem claim_C3 (hp : 0 < p) (hr : 0 < r) (hy : 0 < y) (hext : extrasNonneg extras) :
    EngineTerminates p r y extras ∧ ZeroExtraFuelBound p r y := by
  have hρ : 0 < r / 12 / 100 := by positivity
  have hn : 0 < y * 12 := by omega
  have hpmt : p * (r / 12 / 100) < annuityPayment p (r / 12 / 100) (y * 12) :=
    annuityPayment_gt hp hρ hn
  constructor
  · obtain ⟨k, hk⟩ := exists_balFrom_nonpos hp hρ hpmt hext
    exact ⟨k, by
      rw [calculateAmortizationTable_eq]
      exact amortLoop_isSome_of_balFrom _ _ _ k k p 1 le_rfl hk⟩
  · intro extras0 h0
    constructor
    · rw [calculateAmortizationTable_eq,
        @amortLoop_congr (r / 12 / 100) (annuityPayment p (r / 12 / 100) (y * 12)) extras0 none
          (fun month => h0 month) (y * 12) p 1]
      refine amortLoop_isSome_of_balFrom _ _ _ (y * 12) (y * 12) p 1 le_rfl ?_
      rw [balFrom_none_apply_n hp hρ hn]
      exact lt_irrefl 0
    · intro entries ti hres
      rw [calculateAmortizationTable_eq] at hres
      exact amortLoop_length_le _ _ _ (y * 12) p 1 entries ti hres

/-- C5: the absent extra-payment sequence and an all-zero sequence of
any length produce identical results (same schedule, same total
interest), for every fuel. -/
theorem claim_C5 (p r : ℚ) (y : ℕ) (fuel L : ℕ) :
    calculateAmortizationTable p r y none fuel =
      calculateAmortizationTable p r y (some (List.replicate L 0)) fuel := by
  rw [calculateAmortizationTable_eq, calculateAmortizationTable_eq]
  exact @amortLoop_congr (r / 12 / 100) (annuityPayment p (r / 12 / 100) (y * 12)) none
    (some (List.replicate L 0)) (fun month => (getExtra_replicate_zero L month).symm) fuel p 1

/-- C9: behavior of a clamped month that carries a positive extra
payment, relative to the balance trace of the run. -/
def FinalClampBehavior (ρ pmt p : ℚ) (extras : Option (List ℚ))
    (res : Option (List ScheduleEntry × ℚ)) : Prop :=
  ∀ entries ti, res = some (entries, ti) →
    ∀ i (h : i < entries.length),
      pmt + getExtra extras (1 + i) >
          balFrom ρ pmt extras p 1 i + balFrom ρ pmt extras p 1 i * ρ →
      0 < getExtra extras (1 + i) →
        (entries.get ⟨i, h⟩).total_payment =
          balFrom ρ pmt extras p 1 i + balFrom ρ pmt extras p 1 i * ρ ∧
        (entries.get ⟨i, h⟩).principal_payment = balFrom ρ pmt extras p 1 i ∧
        (entries.get ⟨i, h⟩).extra_payment = getExtra extras (1 + i) ∧
        balFrom ρ pmt extras p 1 (i + 1) = -(getExtra extras (1 + i)) ∧
        (entries.get ⟨i, h⟩).remaining_balance = 0 ∧
        (entries.get ⟨i, h⟩).total_payment <
          (entries.get ⟨i, h⟩).principal_payment + (entries.get ⟨i, h⟩).extra_payment +
            (entries.get ⟨i, h⟩).interest_payment ∧
        i = entries.length - 1

/-- C9: in a month where the clamp fires while the extra payment is
positive, the emitted total_payment is balance + interest (excluding the
extra), the extra_payment field still records the full extra, the
internal balance is driven to minus the extra (clamped to 0 in the
displayed remaining_balance), total_payment < principal_payment +
extra_payment + interest_payment, and that month is the last row. -/
theorem claim_C9 (p r : ℚ) (y : ℕ) (extras : Option (List ℚ)) (fuel : ℕ) :
    FinalClampBehavior (r / 12 / 100) (annuityPayment p (r / 12 / 100) (y * 12)) p extras
      (calculateAmortizationTable p r y extras fuel) := by
  intro entries ti hres
  rw [calculateAmortizationTable_eq] at hres
  set ρ := r / 12 / 100
  set pmt := annuityPayment p ρ (y * 12)
  obtain ⟨hget, -, -⟩ := amortLoop_spec ρ pmt extras fuel p 1 entries ti hres
  intro i h hclamp hepos
  have hsucc : (amortStep ρ pmt (getExtra extras (1 + i)) (balFrom ρ pmt extras p 1 i)
      (1 + i)).2 = balFrom ρ pmt extras p 1 (i + 1) := rfl
  have hbal : balFrom ρ pmt extras p 1 (i + 1) = -(getExtra extras (1 + i)) := by
    rw [← hsucc, amortStep_snd_clamp hclamp]
  refine ⟨?_, ?_, ?_, hbal, ?_, ?_, ?_⟩
  · rw [(hget i h).1, amortStep_tp_clamp hclamp]
  · rw [(hget i h).1, amortStep_pp_clamp hclamp]
  · rw [(hget i h).1, amortStep_extra]
  · rw [(hget i h).1, amortStep_remaining, hsucc, hbal]
    exact max_eq_right (by linarith)
  · rw [(hget i h).1, amortStep_tp_clamp hclamp, amortStep_pp_clamp hclamp,
      amortStep_extra, amortStep_interest]
    linarith
  · by_contra hne
    have hlt : i + 1 < entries.length := by omega
    have := (hget (i + 1) hlt).2
    rw [hbal] at this
    linarith

/-- C10 (loop part): every emitted row carries a strictly positive
principal_payment. -/
def PrincipalComponentsPositive (res : Option (List ScheduleEntry × ℚ)) : Prop :=
  ∀ entries ti, res = some (entries, ti) → ∀ en ∈ entries, 0 < en.principal_payment

/-- C10: in exact arithmetic the annuity denominator (1+monthly_rate)^n - 1
is strictly positive, the computed base payment strictly exceeds the
interest on the full principal for one month, and consequently every
emitted row has a strictly positive principal component. -/
theorem claim_C10 (hp : 0 < p) (hr : 0 < r) (hy : 0 < y) (hext : extrasNonneg extras)
    (fuel : ℕ) :
    0 < (1 + r / 12 / 100) ^ (y * 12) - 1 ∧
    p * (r / 12 / 100) < annuityPayment p (r / 12 / 100) (y * 12) ∧
    PrincipalComponentsPositive (calculateAmortizationTable p r y extras fuel) := by
  have hρ : 0 < r / 12 / 100 := by positivity
  have hn : 0 < y * 12 := by omega
  have hq : 1 < (1 + r / 12 / 100) ^ (y * 12) := one_lt_pow₀ (by linarith) hn.ne'
  have hpmt : p * (r / 12 / 100) < annuityPayment p (r / 12 / 100) (y * 12) :=
    annuityPayment_gt hp hρ hn
  refine ⟨by linarith, hpmt, ?_⟩
  intro entries ti hres en hen
  rw [calculateAmortizationTable_eq] at hres
  set ρ := r / 12 / 100
  set pmt := annuityPayment p ρ (y * 12)
  obtain ⟨hget, -, -⟩ := amortLoop_spec ρ pmt extras fuel p 1 entries ti hres
  obtain ⟨⟨i, hi⟩, rfl⟩ := List.mem_iff_get.mp hen
  obtain ⟨heq, hpos⟩ := hget i hi
  rw [heq]
  have hbp : balFrom ρ pmt extras p 1 i ≤ p := balFrom_le_init hp hρ hpmt hext i
  by_cases hc : pmt + getExtra extras (1 + i) >
      balFrom ρ pmt extras p 1 i + balFrom ρ pmt extras p 1 i * ρ
  · rw [amortStep_pp_clamp hc]; exact hpos
  · rw [amortStep_pp_noclamp hc]
    have : balFrom ρ pmt extras p 1 i * ρ ≤ p * ρ := mul_le_mul_of_nonneg_right hbp hρ.le
    linarith

/-- A uniform extra payment of ε covering all nominal months reads as ε
at every month of the nominal term. -/
theorem getExtra_replicate {n month : ℕ} (ε : ℚ) (h1 : 1 ≤ month) (h2 : month ≤ n) :
    getExtra (some (List.replicate n ε)) month = ε := by
  simp only [getExtra, List.length_replicate, if_pos h2]
  have : month - 1 < n := by omega
  simp [List.getD_eq_getElem?_getD, List.getElem?_replicate, this]

/-- C4 (amended): the all-ε extra run terminates within the nominal
term, its schedule is no longer than the zero-extra schedule, and its
total interest is strictly smaller. -/
def ExtraShortensAndSaves (p r ε : ℚ) (y fuel : ℕ) : Prop :=
  ∃ s t s0 t0,
    calculateAmortizationTable p r y (some (List.replicate (y * 12) ε)) fuel = some (s, t) ∧
    calculateAmortizationTable p r y none fuel = some (s0, t0) ∧
    s.length ≤ s0.length ∧ t < t0

/-- C4 (amended): for identical positive principal, rate and term, a
uniform positive extra payment yields a schedule no longer than the
zero-extra schedule and strictly smaller total interest.  (The strict
length decrease asserted by the original claim fails for small extras;
see the counterexample.) -/
theorem claim_C4_amended {p r ε : ℚ} {y : ℕ} (hp : 0 < p) (hr : 0 < r) (hy : 0 < y)
    (hε : 0 < ε) {fuel : ℕ} (hfuel : y * 12 ≤ fuel) : ExtraShortensAndSaves p r ε y fuel := by
  set ρ := r / 12 / 100 with hρdef
  have hρ : 0 < ρ := by rw [hρdef]; positivity
  set n := y * 12 with hndef
  have hn : 0 < n := by omega
  set pmt := annuityPayment p ρ n with hpmtdef
  have hpmt : p * ρ < pmt := annuityPayment_gt hp hρ hn
  set ext := some (List.replicate n ε) with hextdef
  have hextnn : extrasNonneg ext := by
    intro x hx
    rw [List.eq_of_mem_replicate hx]
    exact hε.le
  -- pointwise comparison of the two balance traces
  have hcmp : ∀ i, balFrom ρ pmt ext p 1 i ≤ balFrom ρ pmt none p 1 i := by
    intro i
    induction i with
    | zero => exact le_refl p
    | succ i ih =>
      calc balFrom ρ pmt ext p 1 (i + 1)
          = (amortStep ρ pmt (getExtra ext (1 + i)) (balFrom ρ pmt ext p 1 i) (1 + i)).2 := rfl
        _ ≤ (amortStep ρ pmt 0 (balFrom ρ pmt ext p 1 i) (1 + i)).2 :=
            amortStep_snd_anti (le_refl 0) (getExtra_nonneg hextnn (1 + i))
        _ ≤ (amortStep ρ pmt 0 (balFrom ρ pmt none p 1 i) (1 + i)).2 :=
            amortStep_snd_mono hρ.le (le_refl 0) ih
        _ = balFrom ρ pmt none p 1 (i + 1) := rfl
  have hB0n : balFrom ρ pmt none p 1 n = 0 := balFrom_none_apply_n hp hρ hn
  have hB1n : ¬ 0 < balFrom ρ pmt ext p 1 n := by
    have := hcmp n
    rw [hB0n] at this
    linarith
  -- both runs terminate within the given fuel
  have hsome1 : (amortLoop ρ pmt ext fuel p 1).isSome = true :=
    amortLoop_isSome_of_balFrom ρ pmt ext n fuel p 1 hfuel hB1n
  have hsome0 : (amortLoop ρ pmt none fuel p 1).isSome = true :=
    amortLoop_isSome_of_balFrom ρ pmt none n fuel p 1 hfuel (by rw [hB0n]; exact lt_irrefl 0)
  obtain ⟨⟨s, t⟩, hs⟩ := Option.isSome_iff_exists.mp hsome1
  obtain ⟨⟨s0, t0⟩, hs0⟩ := Option.isSome_iff_exists.mp hsome0
  obtain ⟨hget1, hend1, -⟩ := amortLoop_spec ρ pmt ext fuel p 1 s t hs
  obtain ⟨hget0, hend0, -⟩ := amortLoop_spec ρ pmt none fuel p 1 s0 t0 hs0
  -- the zero-extra schedule has exactly n rows
  have hlen0 : s0.length = n := by
    rcases lt_trichotomy s0.length n with hlt | heq | hgt
    · exact absurd (balFrom_none_pos hp hρ hn hlt) hend0
    · exact heq
    · have := (hget0 n hgt).2
      rw [hB0n] at this
      exact absurd this (lt_irrefl 0)
  -- the ε-extra schedule has at least one and at most n rows
  have hm0 : s.length ≠ 0 := by
    intro hz
    rw [hz] at hend1
    exact hend1 (by simpa [balFrom] using hp)
  have hmle : s.length ≤ n := by
    by_contra hc
    push_neg at hc
    exact hB1n (hget1 n hc).2
  -- the total interests are the trace sums
  have ht : t = ∑ i ∈ Finset.range s.length, balFrom ρ pmt ext p 1 i * ρ :=
    amortLoop_ti_eq_sum ρ pmt ext fuel p 1 s t hs
  have ht0 : t0 = ∑ i ∈ Finset.range n, balFrom ρ pmt none p 1 i * ρ := by
    rw [amortLoop_ti_eq_sum ρ pmt none fuel p 1 s0 t0 hs0, hlen0]
  have hsum_le : ∑ i ∈ Finset.range s.length, balFrom ρ pmt none p 1 i * ρ ≤
      ∑ i ∈ Finset.range n, balFrom ρ pmt none p 1 i * ρ := by
    refine Finset.sum_le_sum_of_subset_of_nonneg (Finset.range_subset.mpr hmle) ?_
    intro i hi _
    have hpos := balFrom_none_pos hp hρ hn (Finset.mem_range.mp hi)
    positivity
  have hεle : ε ≤ getExtra ext 1 := by
    rw [hextdef, getExtra_replicate ε (le_refl 1) hn]
  have htlt : t < t0 := by
    rcases Nat.lt_or_ge s.length 2 with hm1 | hm2
    · -- exactly one row with extras: its interest is p * ρ, strictly less
      -- than the first two months of interest of the zero-extra run
      have hone : s.length = 1 := by omega
      have h2n : 2 ≤ n := by omega
      have hB01 : 0 < balFrom ρ pmt none p 1 1 := balFrom_none_pos hp hρ hn (by omega)
      have hsum2 : ∑ i ∈ Finset.range 2, balFrom ρ pmt none p 1 i * ρ ≤
          ∑ i ∈ Finset.range n, balFrom ρ pmt none p 1 i * ρ := by
        refine Finset.sum_le_sum_of_subset_of_nonneg (Finset.range_subset.mpr h2n) ?_
        intro i hi _
        have hpos := balFrom_none_pos hp hρ hn (Finset.mem_range.mp hi)
        positivity
      rw [ht, ht0, hone]
      rw [Finset.sum_range_one]
      have : (balFrom ρ pmt ext p 1 0) * ρ = p * ρ := rfl
      rw [this]
      have hexp : ∑ i ∈ Finset.range 2, balFrom ρ pmt none p 1 i * ρ =
          p * ρ + balFrom ρ pmt none p 1 1 * ρ := by
        rw [Finset.sum_range_succ, Finset.sum_range_one]
        rfl
      nlinarith [mul_pos hB01 hρ]
    · -- at least two rows with extras: strict decrease already at month 2
      have hB11 : 0 < balFrom ρ pmt ext p 1 1 := (hget1 1 (by omega)).2
      have hstep1 : balFrom ρ pmt ext p 1 1 = (amortStep ρ pmt (getExtra ext 1) p 1).2 := rfl
      have hnc : ¬ pmt + getExtra ext 1 > p + p * ρ := by
        intro hc
        rw [hstep1, amortStep_snd_clamp hc] at hB11
        have := getExtra_nonneg hextnn 1
        linarith
      have hnc0 : ¬ pmt + (0:ℚ) > p + p * ρ := by
        push_neg at hnc ⊢
        have := getExtra_nonneg hextnn 1
        linarith
      have hB11val : balFrom ρ pmt ext p 1 1 = p + p * ρ - pmt - getExtra ext 1 := by
        rw [hstep1, amortStep_snd_noclamp hnc]
      have hB01val : balFrom ρ pmt none p 1 1 = p + p * ρ - pmt - 0 := by
        rw [show balFrom ρ pmt none p 1 1 = (amortStep ρ pmt 0 p 1).2 from rfl,
          amortStep_snd_noclamp hnc0]
      have hstrict : balFrom ρ pmt ext p 1 1 < balFrom ρ pmt none p 1 1 := by
        rw [hB11val, hB01val]
        linarith
      have hsum_lt : ∑ i ∈ Finset.range s.length, balFrom ρ pmt ext p 1 i * ρ <
          ∑ i ∈ Finset.range s.length, balFrom ρ pmt none p 1 i * ρ := by
        refine Finset.sum_lt_sum (fun i _ => mul_le_mul_of_nonneg_right (hcmp i) hρ.le) ?_
        exact ⟨1, Finset.mem_range.mpr (by omega), mul_lt_mul_of_pos_right hstrict hρ⟩
      rw [ht, ht0]
      exact lt_of_lt_of_le hsum_lt hsum_le
  refine ⟨s, t, s0, t0, ?_, ?_, ?_, htlt⟩
  · rw [calculateAmortizationTable_eq]; exact hs
  · rw [calculateAmortizationTable_eq]; exact hs0
  · rw [hlen0]; exact hmle

end Claims

/-!  Input validation (Plan.calculate_amortization, main.py:199-263).
The Python code parses the three text fields with float()/int(); a parse
failure raises ValueError.  We model the outcome of parsing as an Option
value (none = the text does not parse as a number).  Note that in the
source the explicit check raise ("... must be a positive number") happens
inside the same try block as the parse, so its ValueError is caught by
the same except clause and re-raised as "... must be a valid number";
both failure modes therefore yield that one message, which the model
mirrors.  Exhaustion of the loop fuel (an artifact of the embedding,
with no Python counterpart) is mapped to a distinct error. -/

/-- Embeds the validation wrapper Plan.calculate_amortization
(main.py:206-233): checks principal, rate and term in order, failing
with the ValueError message of the first failing check, before the
engine is ever invoked. -/
def calculateAmortization (principal? annual_rate? : Option ℚ) (years? : Option ℤ)
    (extras : Option (List ℚ)) (fuel : ℕ) : Except String (List ScheduleEntry × ℚ) :=
  match principal? with
  | none => .error "Principal must be a valid number"
  | some principal =>
    if principal ≤ 0 then .error "Principal must be a valid number"
    else
      match annual_rate? with
      | none => .error "Interest rate must be a valid number"
      | some annual_rate =>
        if annual_rate ≤ 0 then .error "Interest rate must be a valid number"
        else
          match years? with
          | none => .error "Loan term must be a valid integer"
          | some years =>
            if years ≤ 0 then .error "Loan term must be a valid integer"
            else
              match calculateAmortizationTable principal annual_rate years.toNat extras fuel with
              | none => .error "fuel exhausted"
              | some res => .ok res

section ClaimC7

variable {principal? annual_rate? : Option ℚ} {years? : Option ℤ}

/-- C7 (hypothesis): some input is invalid — unparseable (none) or
non-positive. -/
def InvalidInputCond (principal? annual_rate? : Option ℚ) (years? : Option ℤ) : Prop :=
  principal? = none ∨ (∃ v, principal? = some v ∧ v ≤ 0) ∨
  annual_rate? = none ∨ (∃ v, annual_rate? = some v ∧ v ≤ 0) ∨
  years? = none ∨ (∃ v, years? = some v ∧ v ≤ 0)

/-- C7 (conclusion): for every extra-payment sequence and every fuel the
computation returns an error — no schedule is ever produced, and the
engine is never consulted (the message does not depend on extras or
fuel). -/
def FailsBeforeComputing (principal? annual_rate? : Option ℚ) (years? : Option ℤ) : Prop :=
  ∃ msg, ∀ (extras : Option (List ℚ)) (fuel : ℕ),
    calculateAmortization principal? annual_rate? years? extras fuel = .error msg

/-- C7: whenever principal, rate or term is non-positive or fails to
parse, the computation fails with an InvalidInput error and produces no
schedule entries, independently of the extra payments and of the engine
itself. -/
theorem claim_C7 (h : InvalidInputCond principal? annual_rate? years?) :
    FailsBeforeComputing principal? annual_rate? years? := by
  rcases hP : principal? with _ | v
  · exact ⟨"Principal must be a valid number", fun extras fuel => rfl⟩
  · by_cases hv : v ≤ 0
    · exact ⟨"Principal must be a valid number", fun extras fuel => by
        simp [calculateAmortization, hv]⟩
    · rcases hR : annual_rate? with _ | w
      · exact ⟨"Interest rate must be a valid number", fun extras fuel => by
          simp [calculateAmortization, hv]⟩
      · by_cases hw : w ≤ 0
        · exact ⟨"Interest rate must be a valid number", fun extras fuel => by
            simp [calculateAmortization, hv, hw]⟩
        · rcases hY : years? with _ | z
          · exact ⟨"Loan term must be a valid integer", fun extras fuel => by
              simp [calculateAmortization, hv, hw]⟩
          · by_cases hz : z ≤ 0
            · exact ⟨"Loan term must be a valid integer", fun extras fuel => by
                simp [calculateAmortization, hv, hw, hz]⟩
            · exfalso
              subst hP hR hY
              rcases h with h | ⟨u, hu, hu0⟩ | h | ⟨u, hu, hu0⟩ | h | ⟨u, hu, hu0⟩
              · exact Option.noConfusion h
              · rw [Option.some.injEq] at hu; subst hu; exact hv hu0
              · exact Option.noConfusion h
              · rw [Option.some.injEq] at hu; subst hu; exact hw hu0
              · exact Option.noConfusion h
              · rw [Option.some.injEq] at hu; subst hu; exact hz hu0

end ClaimC7

/-!  Month labeling (Plan._display_amortization_table, main.py:387-406).
The Python code uses the fixed table calendar.month_abbr, whose entry 0
is the empty string and entries 1..12 are the English three-letter
abbreviations. -/

/-- The fixed table calendar.month_abbr used at main.py:393-397. -/
def month_abbr : List String :=
  ["", "Jan", "Feb", "Mar", "Apr", "May", "Jun", "Jul", "Aug", "Sep", "Oct", "Nov", "Dec"]

/-- The two year-start radio buttons of the UI, modeled as a closed
two-variant enumeration. -/
inductive YearConvention where
  | loanStart
  | calendarYear
  deriving Repr, DecidableEq

/-- Embeds the month-label computation of main.py:388-406: with the
sentinel "1 (numbered)" start month (modeled none) the label is the
decimal month index; otherwise it is the cyclically shifted month
abbreviation month_abbr[(month_num + start_month_num - 2) % 12 + 1]
followed by " Y" and year_offset + 1, where year_offset is
(month_num - 1) / 12 under LoanStart and
(month_num + start_month_num - 2) / 12 under CalendarYear. -/
def monthLabel (month_num : ℕ) (start_month : Option ℕ) (conv : YearConvention) : String :=
  match start_month with
  | none => toString month_num
  | some start_month_num =>
    let month_name := month_abbr.getD ((month_num + start_month_num - 2) % 12 + 1) ""
    let year_offset :=
      match conv with
      | .loanStart => (month_num - 1) / 12
      | .calendarYear => (month_num + start_month_num - 2) / 12
    month_name ++ " Y" ++ toString (year_offset + 1)

/-- The 12-entry month table the claim describes (month_abbr without its
empty sentinel entry). -/
def monthTable12 : List String :=
  ["Jan", "Feb", "Mar", "Apr", "May", "Jun", "Jul", "Aug", "Sep", "Oct", "Nov", "Dec"]

/-- C8: the numbered sentinel yields the decimal index as text; a real
start month yields the cyclically shifted three-letter abbreviation
followed by " Y" and the year offset (plus one) prescribed by the year
convention; in particular March with LoanStart gives "Mar Y1" at month 1
and "Mar Y2" at month 13. -/
theorem claim_C8 (m sm : ℕ) (hm : 1 ≤ m) (hsm1 : 1 ≤ sm) (hsm2 : sm ≤ 12) :
    (∀ conv, monthLabel m none conv = toString m) ∧
    monthLabel m (some sm) .loanStart =
      monthTable12.getD ((m + sm - 2) % 12) "" ++ " Y" ++ toString ((m - 1) / 12 + 1) ∧
    monthLabel m (some sm) .calendarYear =
      monthTable12.getD ((m + sm - 2) % 12) "" ++ " Y" ++ toString ((m + sm - 2) / 12 + 1) ∧
    monthLabel 1 (some 3) .loanStart = "Mar Y1" ∧
    monthLabel 13 (some 3) .loanStart = "Mar Y2" := by
  have key : ∀ x, x < 12 → month_abbr.getD (x + 1) "" = monthTable12.getD x "" := by decide
  have h12 : (m + sm - 2) % 12 < 12 := Nat.mod_lt _ (by norm_num)
  refine ⟨fun conv => rfl, ?_, ?_, by decide, by decide⟩
  · show month_abbr.getD ((m + sm - 2) % 12 + 1) "" ++ " Y" ++ toString ((m - 1) / 12 + 1) = _
    rw [key _ h12]
  · show month_abbr.getD ((m + sm - 2) % 12 + 1) "" ++ " Y" ++
      toString ((m + sm - 2) / 12 + 1) = _
    rw [key _ h12]

/-- Rounding to two decimals, as applied at the display boundary
(f-strings with :,.2f in main.py). -/
def round2 (q : ℚ) : ℚ := round (q * 100) / 100

section Concrete

/- The arithmetic of Rat is irreducible by default; restore reducibility
locally so that concrete runs of the engine can be evaluated by kernel
reduction. -/
attribute [local semireducible] Rat.mul Rat.inv Rat.add Rat.sub

/-- C6: for principal 1000, annual rate 12 and a 1-year term with no
extra payments, the engine emits exactly 12 rows, the first total
payment is the annuity value 1000 (0.01 · 1.01^12)/(1.01^12 - 1) (equal
already before rounding to two decimals), and the last remaining balance
is exactly 0. -/
theorem claim_C6 :
    ((calculateAmortizationTable 1000 12 1 none 12).map (fun st => st.1.length)).getD 0 = 12 ∧
    ((calculateAmortizationTable 1000 12 1 none 12).bind (fun st => st.1.head?)).map
        (fun en => round2 en.total_payment) =
      some (round2 (1000 * ((1 / 100) * (101 / 100) ^ 12) / ((101 / 100) ^ 12 - 1))) ∧
    ((calculateAmortizationTable 1000 12 1 none 12).bind (fun st => st.1.getLast?)).map
        (fun en => en.remaining_balance) = some 0 := by
  refine ⟨by decide, by decide, by decide⟩

/-- C4 as stated is false: with principal 1000, rate 12, term 1 year and
a uniform positive extra payment of 0.01 per month, both runs produce
exactly 12 rows, so the schedule length does not strictly decrease. -/
theorem claim_C4_counterexample :
    ((calculateAmortizationTable 1000 12 1 (some (List.replicate 12 (1 / 100))) 12).map
        (fun st => st.1.length)).getD 0 = 12 ∧
    ((calculateAmortizationTable 1000 12 1 none 12).map (fun st => st.1.length)).getD 0 = 12 ∧
    ¬ (((calculateAmortizationTable 1000 12 1 (some (List.replicate 12 (1 / 100))) 12).map
          (fun st => st.1.length)).getD 0 <
        ((calculateAmortizationTable 1000 12 1 none 12).map (fun st => st.1.length)).getD 0) := by
  refine ⟨by decide, by decide, by decide⟩

end Concrete

section Witnesses

theorem claim_C1_witness :
    (0:ℚ) < 1000 ∧ (0:ℚ) < 12 ∧ 0 < 1 ∧ extrasNonneg none ∧
    ScheduleInvariants (calculateAmortizationTable 1000 12 1 none 12) :=
  ⟨by norm_num, by norm_num, by norm_num, trivial,
    claim_C1 (by norm_num) (by norm_num) (by norm_num) (by decide) 12⟩

theorem claim_C3_witness :
    (0:ℚ) < 1000 ∧ (0:ℚ) < 12 ∧ 0 < 1 ∧ extrasNonneg none ∧
    (EngineTerminates 1000 12 1 none ∧ ZeroExtraFuelBound 1000 12 1) :=
  ⟨by norm_num, by norm_num, by norm_num, trivial,
    claim_C3 (by norm_num) (by norm_num) (by norm_num) (by decide)⟩

theorem claim_C4_amended_witness :
    (0:ℚ) < 1000 ∧ (0:ℚ) < 12 ∧ 0 < 1 ∧ (0:ℚ) < 1 / 100 ∧ 1 * 12 ≤ 12 ∧
    ExtraShortensAndSaves 1000 12 (1 / 100) 1 12 :=
  ⟨by norm_num, by norm_num, by norm_num, by norm_num, by norm_num,
    claim_C4_amended (by norm_num) (by norm_num) (by norm_num) (by norm_num) (by norm_num)⟩

theorem claim_C7_witness :
    InvalidInputCond (some 0) (some 12) (some 1) ∧
    FailsBeforeComputing (some 0) (some 12) (some 1) :=
  ⟨Or.inr (Or.inl ⟨0, rfl, le_refl 0⟩),
    claim_C7 (Or.inr (Or.inl ⟨0, rfl, le_refl 0⟩))⟩

theorem claim_C8_witness :
    1 ≤ 1 ∧ 1 ≤ 3 ∧ 3 ≤ 12 ∧ monthLabel 1 (some 3) YearConvention.loanStart = "Mar Y1" :=
  ⟨le_refl 1, by norm_num, by norm_num,
    (claim_C8 1 3 (le_refl 1) (by norm_num) (by norm_num)).2.2.2.1⟩

theorem claim_C10_witness :
    (0:ℚ) < 1000 ∧ (0:ℚ) < 12 ∧ 0 < 1 ∧ extrasNonneg none ∧
    (0 < (1 + (12:ℚ) / 12 / 100) ^ (1 * 12) - 1 ∧
      1000 * ((12:ℚ) / 12 / 100) < annuityPayment 1000 ((12:ℚ) / 12 / 100) (1 * 12) ∧
      PrincipalComponentsPositive (calculateAmortizationTable 1000 12 1 none 12)) :=
  ⟨by norm_num, by norm_num, by norm_num, trivial,
    claim_C10 (by norm_num) (by norm_num) (by norm_num) (by decide) 12⟩

end Witnesses

end Morty
